import Mathlib

/-!
# Verification of `add-to-steam.py` (MinecraftSplitscreenSteamdeck)

Shallow embedding of the core of `add-to-steam.py`: the app-id hash
(`appid = 0x80000000 | zlib.crc32((APPNAME + EXE).encode("utf-8")) & 0xFFFFFFFF`),
the index scan (`re.findall(rb'\x00(\d+)\x00', data)` in `get_latest_index`),
the binary shortcut record builder (`make_entry`), and the splice of the new
entry before the trailing `\x08\x08` terminator of `shortcuts.vdf`.

Bytes are modelled as `List Nat` (each element < 256 for real data, though the
definitions are total). Python's `struct.pack('<I', n)`, which raises for
out-of-range arguments, is modelled with `Option`.
-/

namespace AddToSteam

/-- UTF-8 bytes of a string, as natural numbers (Python `s.encode("utf-8")`). -/
def utf8Bytes (s : String) : List Nat :=
  s.toUTF8.data.toList.map (fun b => b.toNat)

/-- ASCII decimal digit test, as the regex class `\d` on bytes. -/
def isDigitByte (b : Nat) : Bool := decide (48 ≤ b) && decide (b ≤ 57)

/-- One shift-xor round of the reflected CRC-32 polynomial `0xEDB88320`. -/
def crc32Round (c : Nat) : Nat :=
  if c % 2 = 1 then (c / 2) ^^^ 0xEDB88320 else c / 2

/-- Fold one message byte into the CRC state (8 polynomial rounds). -/
def crc32Byte (c b : Nat) : Nat := crc32Round^[8] (c ^^^ b % 256)

/-- Standard CRC-32 (the `zlib.crc32` checksum): initial value `0xFFFFFFFF`,
reflected polynomial `0xEDB88320`, final xor `0xFFFFFFFF`. -/
def crc32 (bs : List Nat) : Nat :=
  (bs.foldl crc32Byte 0xFFFFFFFF) ^^^ 0xFFFFFFFF

/-- Line 263: `appid = 0x80000000 | zlib.crc32((APPNAME + EXE).encode("utf-8")) & 0xFFFFFFFF`; in Python `&` binds tighter than `|`. -/
def appid (appname exe : String) : Nat :=
  0x80000000 ||| (crc32 (utf8Bytes (appname ++ exe)) &&& 0xFFFFFFFF)

/-- The four little-endian bytes of a 32-bit value. -/
def packLE4 (n : Nat) : List Nat :=
  [n % 256, n / 256 % 256, n / 65536 % 256, n / 16777216 % 256]

/-- Python `struct.pack('<I', n)`: little-endian uint32, raising `struct.error`
outside `[0, 2^32)` (modelled as `none`). -/
def structPackLE_I (n : Nat) : Option (List Nat) :=
  if n < 4294967296 then some (packLE4 n) else none

/-- Model of `make_entry(index, appid, appname, exe, startdir)` (lines 239-260), with the
module-level `config_dir` passed explicitly.  Builds the binary VDF entry
`\x00<index>\x00` then the five fields and the `\x08` end marker. -/
def make_entry (config_dir : String) (index : Nat) (appid0 : Nat)
    (appname exe startdir : String) : Option (List Nat) :=
  match structPackLE_I appid0 with
  | none => none
  | some appidBytes =>
    some ([0] ++ utf8Bytes (toString index) ++ [0]
      ++ [2] ++ utf8Bytes "appid" ++ [0] ++ appidBytes
      ++ [1] ++ utf8Bytes "appname" ++ [0] ++ utf8Bytes appname ++ [0]
      ++ [1] ++ utf8Bytes "exe" ++ [0] ++ utf8Bytes exe ++ [0]
      ++ [1] ++ utf8Bytes "StartDir" ++ [0] ++ utf8Bytes startdir ++ [0]
      ++ [1] ++ utf8Bytes "icon" ++ [0]
          ++ utf8Bytes config_dir ++ utf8Bytes "/grid/"
          ++ utf8Bytes (toString appid0) ++ utf8Bytes "_icon.ico" ++ [0]
      ++ [8])

/-- One-pass scanner implementing `re.findall(rb'\x00(\d+)\x00', data)`.
`pending = some ds` means an opening null byte has been read, followed so far
by the digit bytes `ds`.  A second null after at least one digit emits the
match and resumes scanning past the consumed trailing null; a null after no
digits becomes the new opening null (the regex scan retries at that
position); any other non-digit byte abandons the pending match.
The lemmas `findall_nil`, `findall_cons_match` and `findall_cons_nomatch`
below prove that this computes exactly the non-overlapping left-to-right
leftmost scan with maximal digit runs, i.e. Python `re.findall` semantics
for this pattern (line 230). -/
def findallGo (pending : Option (List Nat)) : List Nat → List (List Nat)
  | [] => []
  | x :: rest =>
    match pending with
    | some ds =>
      if x = 0 then
        if ds.isEmpty then findallGo (some []) rest
        else ds :: findallGo none rest
      else if isDigitByte x then findallGo (some (ds ++ [x])) rest
      else findallGo none rest
    | none =>
      if x = 0 then findallGo (some []) rest else findallGo none rest

/-- All matches of `re.findall(rb'\x00(\d+)\x00', data)` (line 230), in byte
order; each match is the list of its captured digit bytes. -/
def findall (data : List Nat) : List (List Nat) := findallGo none data

/-- Decimal value of a digit-byte string (Python `int(matches[-1])`). -/
def decValue (ds : List Nat) : Nat :=
  ds.foldl (fun acc d => acc * 10 + (d - 48)) 0

/-- Model of `get_latest_index(data)` (lines 225-233): the value of the last regex match,
or `-1` when there is none. -/
def get_latest_index (data : List Nat) : Int :=
  match (findall data).getLast? with
  | some ds => (decValue ds : Int)
  | none => -1

/-- Line 236: `index = get_latest_index(data) + 1` -- the spec's `nextIndex`. -/
def nextIndex (data : List Nat) : Int := get_latest_index data + 1

/-- Lines 267-274: if the container ends with `\x08\x08`, splice the entry as
`data[:-2] + entry + b'\x08\x08'`; otherwise fail (`exit(1)`, nothing written). -/
def insertEntry (data entry : List Nat) : Option (List Nat) :=
  if [8, 8].isSuffixOf data then
    some (data.take (data.length - 2) ++ entry ++ [8, 8])
  else
    none

/-- The freshly-initialized container `b'\x00shortcuts\x00\x08\x08'` (line 219). -/
def initialContainer : List Nat := [0] ++ utf8Bytes "shortcuts" ++ [0, 8, 8]

/-- A nonempty all-digit byte string: the digits of one index-key marker. -/
def isMarkerDigits (ds : List Nat) : Prop :=
  ds ≠ [] ∧ ∀ d ∈ ds, isDigitByte d = true

/-- A byte list starts with an occurrence of the pattern `\x00\d+\x00`. -/
def matchHead : List Nat → Bool
  | 0 :: rest =>
    !(rest.takeWhile isDigitByte).isEmpty
      && ((rest.dropWhile isDigitByte).head? == some 0)
  | _ => false

/-- Test whether `pat` occurs as a contiguous run somewhere in `l`. -/
def occursIn (pat : List Nat) : List Nat → Bool
  | [] => pat.isEmpty
  | b :: rest => pat.isPrefixOf (b :: rest) || occursIn pat rest

end AddToSteam

namespace AddToSteam

theorem utf8Bytes_append (a b : String) :
    utf8Bytes (a ++ b) = utf8Bytes a ++ utf8Bytes b := by
  simp [utf8Bytes, String.toUTF8, String.data_append, List.flatMap_append]

theorem isDigitByte_ne_zero (d : Nat) (h : isDigitByte d = true) : d ≠ 0 := by
  unfold isDigitByte at h
  simp only [Bool.and_eq_true, decide_eq_true_eq] at h
  omega

theorem findallGo_some_digits (ds : List Nat) (hds : ∀ d ∈ ds, isDigitByte d = true)
    (acc l : List Nat) :
    findallGo (some acc) (ds ++ l) = findallGo (some (acc ++ ds)) l := by
  induction ds generalizing acc with
  | nil => simp
  | cons x xs ih =>
    have hx : isDigitByte x = true := hds x (by simp)
    have hx0 : x ≠ 0 := isDigitByte_ne_zero x hx
    simp only [List.cons_append, findallGo, List.append_eq]
    rw [if_neg hx0, if_pos hx, ih (fun d hd => hds d (by simp [hd]))]
    simp

theorem findallGo_none_digits (ds : List Nat) (hds : ∀ d ∈ ds, isDigitByte d = true)
    (l : List Nat) :
    findallGo none (ds ++ l) = findallGo none l := by
  induction ds with
  | nil => simp
  | cons x xs ih =>
    have hx0 : x ≠ 0 := isDigitByte_ne_zero x (hds x (by simp))
    simp only [List.cons_append, findallGo]
    rw [if_neg hx0]
    exact ih (fun d hd => hds d (by simp [hd]))

theorem findall_nil : findall [] = [] := rfl

/-- A successful regex match at the current position: a null byte, a maximal
nonempty digit run, then a null byte; the scan emits the digits and resumes
past the consumed trailing null byte. -/
theorem findall_cons_match (rest r3 : List Nat)
    (hne : rest.takeWhile isDigitByte ≠ [])
    (hdrop : rest.dropWhile isDigitByte = 0 :: r3) :
    findall (0 :: rest) = rest.takeWhile isDigitByte :: findall r3 := by
  unfold findall
  have h0 : findallGo none (0 :: rest) = findallGo (some []) rest := by
    simp [findallGo]
  rw [h0]
  conv_lhs => rw [← List.takeWhile_append_dropWhile (p := isDigitByte) (l := rest)]
  rw [hdrop,
    findallGo_some_digits _ (fun d hd => List.mem_takeWhile_imp hd) [] _,
    List.nil_append]
  have hempty : (rest.takeWhile isDigitByte).isEmpty = false := by
    simpa [List.isEmpty_iff] using hne
  simp [findallGo, hempty]

/-- No regex match starts at the current position: the scan moves one byte
to the right. -/
theorem findall_cons_nomatch (b : Nat) (rest : List Nat)
    (h : matchHead (b :: rest) = false) :
    findall (b :: rest) = findall rest := by
  by_cases hb : b = 0
  · subst hb
    unfold matchHead at h
    simp only [Bool.and_eq_false_iff, Bool.not_eq_false', List.isEmpty_iff,
      beq_eq_false_iff_ne, ne_eq] at h
    have h0 : findall (0 :: rest) = findallGo (some []) rest := by
      simp [findall, findallGo]
    rcases h with htake | hdrophead
    · -- the byte after the opening null is not a digit (or the input ends)
      cases rest with
      | nil => simp [h0, findall, findallGo]
      | cons y rest2 =>
        have hy : isDigitByte y = false := by
          by_contra hc
          simp only [Bool.not_eq_false] at hc
          simp [List.takeWhile_cons, hc] at htake
        by_cases hy0 : y = 0
        · subst hy0
          rw [h0]
          have : findall (0 :: rest2) = findallGo (some []) rest2 := by
            simp [findall, findallGo]
          rw [this]
          simp [findallGo]
        · rw [h0]
          simp [findall, findallGo, hy0, hy]
    · -- digits follow the opening null, but no second null follows them
      rw [h0]
      conv_lhs => rw [← List.takeWhile_append_dropWhile (p := isDigitByte) (l := rest)]
      conv_rhs =>
        rw [show findall rest = findallGo none rest from rfl,
          ← List.takeWhile_append_dropWhile (p := isDigitByte) (l := rest)]
      rw [findallGo_some_digits _ (fun d hd => List.mem_takeWhile_imp hd) [] _,
        List.nil_append,
        findallGo_none_digits _ (fun d hd => List.mem_takeWhile_imp hd) _]
      cases hrest2 : rest.dropWhile isDigitByte with
      | nil => simp [findallGo]
      | cons z r2 =>
        have hz : isDigitByte z = false := by
          have := List.head?_dropWhile_not isDigitByte rest
          rw [hrest2] at this
          simpa using this
        have hz0 : z ≠ 0 := by
          intro hzz
          rw [hrest2, hzz] at hdrophead
          simp at hdrophead
        simp [findallGo, hz0, hz]
  · simp [findall, findallGo, hb]

theorem matchHead_cons_zero (rest : List Nat) :
    matchHead (0 :: rest) =
      (!(rest.takeWhile isDigitByte).isEmpty
        && ((rest.dropWhile isDigitByte).head? == some 0)) := rfl

theorem matchHead_cons_ne (b : Nat) (rest : List Nat) (hb : b ≠ 0) :
    matchHead (b :: rest) = false := by
  cases b with
  | zero => exact absurd rfl hb
  | succ n => rfl

theorem matchHead_nil : matchHead [] = false := rfl

/-- Characterization: `matchHead` holds exactly on lists starting with the byte pattern
`\x00\d+\x00`. -/
theorem matchHead_iff_occurrence (l : List Nat) :
    matchHead l = true ↔
      ∃ ds tail, isMarkerDigits ds ∧ l = 0 :: (ds ++ 0 :: tail) := by
  constructor
  · intro h
    cases l with
    | nil => simp [matchHead_nil] at h
    | cons b rest =>
      by_cases hb : b = 0
      · subst hb
        rw [matchHead_cons_zero] at h
        simp only [Bool.and_eq_true, Bool.not_eq_true', List.isEmpty_eq_false,
          beq_iff_eq] at h
        obtain ⟨h1, h2⟩ := h
        cases hdw : rest.dropWhile isDigitByte with
        | nil => rw [hdw] at h2; simp at h2
        | cons z r3 =>
          rw [hdw] at h2
          simp only [List.head?_cons, Option.some_inj] at h2
          subst h2
          refine ⟨rest.takeWhile isDigitByte, r3,
            ⟨h1, fun d hd => List.mem_takeWhile_imp hd⟩, ?_⟩
          have hr : rest = rest.takeWhile isDigitByte ++ 0 :: r3 := by
            conv_lhs => rw [← List.takeWhile_append_dropWhile (p := isDigitByte) (l := rest)]
            rw [hdw]
          rw [← hr]
      · rw [matchHead_cons_ne b rest hb] at h
        exact absurd h (by simp)
  · rintro ⟨ds, tail, ⟨hne, hdig⟩, rfl⟩
    rw [matchHead_cons_zero]
    have h0 : isDigitByte 0 = false := rfl
    rw [List.takeWhile_append_of_pos hdig, List.dropWhile_append_of_pos hdig]
    simp [List.takeWhile_cons, List.dropWhile_cons, h0, List.isEmpty_iff, hne]

theorem findall_ne_nil_of_matchHead (l : List Nat) (h : matchHead l = true) :
    findall l ≠ [] := by
  cases l with
  | nil => simp [matchHead_nil] at h
  | cons b rest =>
    by_cases hb : b = 0
    · subst hb
      rw [matchHead_cons_zero] at h
      simp only [Bool.and_eq_true, Bool.not_eq_true', List.isEmpty_eq_false,
        beq_iff_eq] at h
      obtain ⟨h1, h2⟩ := h
      cases hdw : rest.dropWhile isDigitByte with
      | nil => rw [hdw] at h2; simp at h2
      | cons z r3 =>
        rw [hdw] at h2
        simp only [List.head?_cons, Option.some_inj] at h2
        subst h2
        rw [findall_cons_match rest r3 h1 hdw]
        simp
    · rw [matchHead_cons_ne b rest hb] at h
      exact absurd h (by simp)

/-- The scan finds no match exactly when no position of the input starts an
occurrence of the pattern `\x00\d+\x00`. -/
theorem findall_eq_nil_iff (data : List Nat) :
    findall data = [] ↔ ∀ i, matchHead (data.drop i) = false := by
  have main : ∀ (n : Nat) (data : List Nat), data.length ≤ n →
      (findall data = [] ↔ ∀ i, matchHead (data.drop i) = false) := by
    intro n
    induction n with
    | zero =>
      intro data hlen
      have : data = [] := List.length_eq_zero.mp (Nat.le_zero.mp hlen)
      subst this
      simp [findall_nil, matchHead_nil]
    | succ n ih =>
      intro data hlen
      cases data with
      | nil => simp [findall_nil, matchHead_nil]
      | cons b rest =>
        by_cases hm : matchHead (b :: rest) = true
        · constructor
          · intro hnil
            exact absurd hnil (findall_ne_nil_of_matchHead _ hm)
          · intro hall
            have := hall 0
            rw [List.drop_zero] at this
            rw [hm] at this
            exact absurd this (by simp)
        · rw [Bool.not_eq_true] at hm
          rw [findall_cons_nomatch b rest hm]
          rw [ih rest (by simp only [List.length_cons] at hlen; omega)]
          constructor
          · intro hall i
            cases i with
            | zero => simpa using hm
            | succ j => simpa using hall j
          · intro hall i
            have := hall (i + 1)
            simpa using this
  exact main data.length data (Nat.le_refl _)

/-- Every digit string the scan captures is a nonempty run of decimal digit
bytes. -/
theorem findall_digits (data : List Nat) :
    ∀ ds ∈ findall data, isMarkerDigits ds := by
  have main : ∀ (l : List Nat) (pending : Option (List Nat)),
      (∀ acc, pending = some acc → ∀ d ∈ acc, isDigitByte d = true) →
      ∀ ds ∈ findallGo pending l, isMarkerDigits ds := by
    intro l
    induction l with
    | nil =>
      intro pending _ ds hds
      simp [findallGo] at hds
    | cons x rest ih =>
      intro pending hpend ds hds
      cases pending with
      | none =>
        by_cases hx : x = 0
        · subst hx
          simp only [findallGo, if_pos rfl] at hds
          refine ih (some []) ?_ ds hds
          intro a h
          rw [Option.some_inj] at h
          subst h
          simp
        · simp only [findallGo, if_neg hx] at hds
          exact ih none (by rintro acc h; cases h) ds hds
      | some acc =>
        have hacc : ∀ d ∈ acc, isDigitByte d = true := hpend acc rfl
        by_cases hx : x = 0
        · subst hx
          by_cases hemp : acc.isEmpty
          · simp only [findallGo, if_pos rfl, if_pos hemp] at hds
            refine ih (some []) ?_ ds hds
            intro a h
            rw [Option.some_inj] at h
            subst h
            simp
          · simp only [findallGo, if_pos rfl, if_neg hemp] at hds
            rcases List.mem_cons.mp hds with rfl | hmem
            · exact ⟨by simpa [List.isEmpty_iff] using hemp, hacc⟩
            · exact ih none (by rintro a h; cases h) ds hmem
        · by_cases hdig : isDigitByte x
          · simp only [findallGo, if_neg hx, if_pos hdig] at hds
            refine ih (some (acc ++ [x])) ?_ ds hds
            intro a h
            rw [Option.some_inj] at h
            subst h
            intro d hd
            rcases List.mem_append.mp hd with h1 | h1
            · exact hacc d h1
            · simp only [List.mem_singleton] at h1
              subst h1; exact hdig
          · simp only [findallGo, if_neg hx, if_neg hdig] at hds
            exact ih none (by rintro a h; cases h) ds hds
  exact main data none (by rintro a h; cases h)

theorem xor_lt_u32 (a b : Nat) (ha : a < 4294967296) (hb : b < 4294967296) :
    a ^^^ b < 4294967296 := by
  have h32 : (4294967296 : Nat) = 2 ^ 32 := by norm_num
  rw [h32] at ha hb ⊢
  exact Nat.xor_lt_two_pow ha hb

theorem crc32Round_lt (c : Nat) (h : c < 4294967296) :
    crc32Round c < 4294967296 := by
  unfold crc32Round
  split
  · exact xor_lt_u32 _ _ (by omega) (by norm_num)
  · omega

theorem crc32_lt (bs : List Nat) : crc32 bs < 4294967296 := by
  have key : ∀ (l : List Nat) (c : Nat), c < 4294967296 →
      l.foldl crc32Byte c < 4294967296 := by
    intro l
    induction l with
    | nil => intro c hc; simpa using hc
    | cons x xs ih =>
      intro c hc
      simp only [List.foldl_cons]
      apply ih
      unfold crc32Byte
      have hiter : ∀ (k m : Nat), m < 4294967296 → crc32Round^[k] m < 4294967296 := by
        intro k
        induction k with
        | zero => intro m hm; simpa using hm
        | succ n ihn =>
          intro m hm
          rw [Function.iterate_succ_apply]
          exact ihn _ (crc32Round_lt m hm)
      exact hiter 8 _ (xor_lt_u32 _ _ hc (by omega))
  unfold crc32
  exact xor_lt_u32 _ _ (key bs 0xFFFFFFFF (by norm_num)) (by norm_num)


theorem crc32_masked_eq_mod (bs : List Nat) :
    crc32 bs &&& 0xFFFFFFFF = crc32 bs % 4294967296 := by
  have h := Nat.and_pow_two_sub_one_eq_mod (crc32 bs) 32
  norm_num at h
  exact h

theorem appid_bit31 (appname exe : String) :
    (appid appname exe).testBit 31 = true := by
  unfold appid
  rw [Nat.testBit_or]
  have h : (0x80000000 : Nat).testBit 31 = true := by decide
  rw [h]
  simp

theorem appid_ge (appname exe : String) : 2147483648 ≤ appid appname exe := by
  have h := Nat.testBit_implies_ge (appid_bit31 appname exe)
  norm_num at h
  exact h

theorem appid_lt_u32 (appname exe : String) : appid appname exe < 4294967296 := by
  unfold appid
  have h32 : (4294967296 : Nat) = 2 ^ 32 := by norm_num
  rw [h32]
  apply Nat.or_lt_two_pow
  · norm_num
  · have h := Nat.and_le_right
      (n := crc32 (utf8Bytes (appname ++ exe))) (m := 0xFFFFFFFF)
    omega


set_option maxRecDepth 40000 in
/-- C1: for every pair of text inputs, `computeAppId` (= `appid`, line 263)
returns the 32-bit value obtained by taking a standard CRC-32 checksum of the
UTF-8 bytes of `displayName ++ executablePath`, masking it to 32 bits, and
setting bit 31; it is a total function of the two strings (the second
conjunct pins `crc32` to the standard CRC-32 via its published check value
on `"123456789"`). -/
theorem appid_crc32_spec :
    (∀ appname exe : String,
      appid appname exe
        = (crc32 (utf8Bytes (appname ++ exe)) % 4294967296) ||| 2147483648)
  ∧ crc32 (utf8Bytes "123456789") = 0xCBF43926 := by
  constructor
  · intro appname exe
    unfold appid
    rw [crc32_masked_eq_mod, Nat.or_comm]
  · decide

/-- C7: the result of `computeAppId` always has bit 31 set and is at least
`0x80000000`, for any input strings including empty ones. -/
theorem appid_high_bit (appname exe : String) :
    (appid appname exe).testBit 31 = true ∧ 0x80000000 ≤ appid appname exe :=
  ⟨appid_bit31 appname exe, appid_ge appname exe⟩

/-- C9: `computeAppId` always lies in `[0x80000000, 0xFFFFFFFF]`, so packing
it as a 4-byte little-endian unsigned integer inside `make_entry` always
succeeds: `struct.pack('<I', appid)` cannot fail with an out-of-range error. -/
theorem appid_range_pack_total (appname exe startdir config_dir : String)
    (index : Nat) :
    0x80000000 ≤ appid appname exe
  ∧ appid appname exe ≤ 0xFFFFFFFF
  ∧ structPackLE_I (appid appname exe) = some (packLE4 (appid appname exe))
  ∧ ∃ bs, make_entry config_dir index (appid appname exe) appname exe startdir
        = some bs := by
  have hlt := appid_lt_u32 appname exe
  refine ⟨appid_ge appname exe, by omega, ?_, ?_⟩
  · unfold structPackLE_I
    rw [if_pos hlt]
  · unfold make_entry structPackLE_I
    rw [if_pos hlt]
    exact ⟨_, rfl⟩

/-- C2: on any container ending in the two terminator bytes `0x08 0x08`,
`insertEntry` removes that suffix, appends the entry bytes, and re-appends
the terminator: the prefix before the removed suffix (`data[:-2]`) is
reproduced unchanged, the entry bytes follow it immediately, and the output
ends with the terminator. -/
theorem insertEntry_splice (data entry pre : List Nat)
    (h : data = pre ++ [8, 8]) :
    insertEntry data entry = some (pre ++ entry ++ [8, 8])
  ∧ pre = data.take (data.length - 2) := by
  subst h
  constructor
  · unfold insertEntry
    rw [if_pos (by simp)]
    have hpre : (pre ++ [8, 8]).take ((pre ++ [8, 8]).length - 2) = pre := by
      apply List.take_left'
      simp
    rw [hpre]
  · rw [List.take_left' (by simp)]

theorem insertEntry_splice_witness :
    ([7, 8, 8] : List Nat) = [7] ++ [8, 8]
  ∧ (insertEntry [7, 8, 8] [5] = some ([7] ++ [5] ++ [8, 8])
      ∧ [7] = List.take ([7, 8, 8].length - 2) [7, 8, 8]) :=
  ⟨rfl, insertEntry_splice [7, 8, 8] [5] [7] rfl⟩

/-- C3: `insertEntry` on a container that does not end with `0x08 0x08` fails
(the program prints an error and exits with status 1, lines 272-274) and
produces no output bytes, so nothing is ever written back to the file. -/
theorem insertEntry_malformed (data entry : List Nat)
    (h : ¬ [8, 8] <:+ data) :
    insertEntry data entry = none := by
  unfold insertEntry
  rw [if_neg (by simpa using h)]

theorem insertEntry_malformed_witness :
    ¬ ([8, 8] : List Nat) <:+ [1, 2]
  ∧ insertEntry [1, 2] [5] = none :=
  ⟨by decide, insertEntry_malformed [1, 2] [5] (by decide)⟩


/-- C4: `nextIndex` (= `get_latest_index(data) + 1`) returns 0 when no
occurrence of the pattern "null byte, one-or-more decimal digits, null byte"
exists anywhere in the container; otherwise it returns one plus the decimal
value of the digits of the last match of the scan (the last matching
occurrence by byte position), and those digits are a genuine nonempty
decimal-digit run. -/
theorem get_latest_index_scan (data : List Nat) :
    ((¬ ∃ i ds tail, isMarkerDigits ds ∧ data.drop i = 0 :: (ds ++ 0 :: tail)) →
      nextIndex data = 0)
  ∧ (∀ ds, (findall data).getLast? = some ds →
      isMarkerDigits ds ∧ nextIndex data = (decValue ds : Int) + 1) := by
  constructor
  · intro h
    have hall : ∀ i, matchHead (data.drop i) = false := by
      intro i
      by_contra hc
      rw [Bool.not_eq_false] at hc
      obtain ⟨ds, tail, hm, heq⟩ := (matchHead_iff_occurrence _).mp hc
      exact h ⟨i, ds, tail, hm, heq⟩
    have hnil : findall data = [] := (findall_eq_nil_iff data).mpr hall
    unfold nextIndex get_latest_index
    rw [hnil]
    rfl
  · intro ds hlast
    refine ⟨findall_digits data ds (List.mem_of_getLast?_eq_some hlast), ?_⟩
    unfold nextIndex get_latest_index
    rw [hlast]

theorem get_latest_index_scan_witness :
    nextIndex [1, 2] = 0
  ∧ (isMarkerDigits [53] ∧ nextIndex [0, 53, 0] = (decValue [53] : Int) + 1) :=
  ⟨(get_latest_index_scan [1, 2]).1 (by
      rintro ⟨i, ds, tail, hm, heq⟩
      rcases i with _ | _ | n <;> simp [List.drop_succ_cons] at heq),
    (get_latest_index_scan [0, 53, 0]).2 [53] (by decide)⟩

/-- C5 counterexample: a container carrying the index markers 5, 2, 0 in that
byte order scans to the match list `[5, 2, 0]`, and `nextIndex` returns
`0 + 1 = 1`, not 6: the code takes one plus the *last* match, not the
maximum, so the claim's "in whatever byte order" fails. -/
theorem nextIndex_desc_order_counterexample :
    (findall [0, 53, 0, 65, 0, 50, 0, 65, 0, 48, 0]).map decValue = [5, 2, 0]
  ∧ nextIndex [0, 53, 0, 65, 0, 50, 0, 65, 0, 48, 0] = 1
  ∧ ¬ nextIndex [0, 53, 0, 65, 0, 50, 0, 65, 0, 48, 0] = 6 :=
  ⟨by decide, by decide, by decide⟩

/-- C5 (amended): for any container whose index markers scan to the values
0, 2, 5 in that order (entries appended in ascending order, the common case),
`nextIndex` returns 6; and for the freshly-initialized container it
returns 0. -/
theorem nextIndex_ascending_markers :
    (∀ data : List Nat,
      (findall data).map decValue = [0, 2, 5] → nextIndex data = 6)
  ∧ nextIndex initialContainer = 0 := by
  constructor
  · intro data h
    rcases hf : findall data with _ | ⟨a, _ | ⟨b, _ | ⟨c, rest⟩⟩⟩ <;>
      rw [hf] at h <;> simp at h
    obtain ⟨h1, h2, h3, h4⟩ := h
    subst h4
    unfold nextIndex get_latest_index
    rw [hf]
    simp [List.getLast?, h3]
  · decide

theorem nextIndex_ascending_markers_witness :
    (findall [0, 48, 0, 65, 0, 50, 0, 65, 0, 53, 0]).map decValue = [0, 2, 5]
  ∧ nextIndex [0, 48, 0, 65, 0, 50, 0, 65, 0, 53, 0] = 6 :=
  ⟨by decide, nextIndex_ascending_markers.1 _ (by decide)⟩

/-- C6: `make_entry` produces exactly the bytes: leading null, decimal text
of the index, null; the type-`0x02` field `appid` (name, null, 4-byte
little-endian value); then, each with type tag `0x01`, name, null, value
text, null: `appname`, `exe`, `StartDir`, `icon` (the icon value being
`<configDir>/grid/<appId>_icon.ico`); and one trailing `0x08` map
terminator, with nothing between fields beyond their own terminators. -/
theorem make_entry_layout (config_dir : String) (index appid0 : Nat)
    (appname exe startdir : String) (h : appid0 < 4294967296) :
    make_entry config_dir index appid0 appname exe startdir
      = some ([0] ++ utf8Bytes (toString index) ++ [0]
        ++ [2] ++ utf8Bytes "appid" ++ [0] ++ packLE4 appid0
        ++ [1] ++ utf8Bytes "appname" ++ [0] ++ utf8Bytes appname ++ [0]
        ++ [1] ++ utf8Bytes "exe" ++ [0] ++ utf8Bytes exe ++ [0]
        ++ [1] ++ utf8Bytes "StartDir" ++ [0] ++ utf8Bytes startdir ++ [0]
        ++ [1] ++ utf8Bytes "icon" ++ [0]
            ++ utf8Bytes (config_dir ++ "/grid/" ++ toString appid0 ++ "_icon.ico")
            ++ [0]
        ++ [8]) := by
  unfold make_entry structPackLE_I
  rw [if_pos h]
  simp only [utf8Bytes_append, List.append_assoc]

theorem make_entry_layout_witness :
    (2147483648 : Nat) < 4294967296
  ∧ make_entry "/c" 0 2147483648 "a" "b" "c"
      = some ([0] ++ utf8Bytes (toString (0 : Nat)) ++ [0]
        ++ [2] ++ utf8Bytes "appid" ++ [0] ++ packLE4 2147483648
        ++ [1] ++ utf8Bytes "appname" ++ [0] ++ utf8Bytes "a" ++ [0]
        ++ [1] ++ utf8Bytes "exe" ++ [0] ++ utf8Bytes "b" ++ [0]
        ++ [1] ++ utf8Bytes "StartDir" ++ [0] ++ utf8Bytes "c" ++ [0]
        ++ [1] ++ utf8Bytes "icon" ++ [0]
            ++ utf8Bytes ("/c" ++ "/grid/" ++ toString (2147483648 : Nat) ++ "_icon.ico")
            ++ [0]
        ++ [8]) :=
  ⟨by norm_num, make_entry_layout "/c" 0 2147483648 "a" "b" "c" (by norm_num)⟩

set_option maxRecDepth 200000 in
/-- C8: end-to-end example. Starting from the freshly-initialized container
`0x00 'shortcuts' 0x00 0x08 0x08`, `nextIndex` is 0; building the record for
`("Minecraft Splitscreen", "/x/run.sh")` and inserting it yields bytes that
start with the original header's first 7 bytes, contain the index-0 marker
`0x00 '0' 0x00`, contain `0x02 'appid' 0x00` followed by the 4-byte
little-endian computed identifier, and end with `0x08 0x08`. -/
theorem end_to_end_example :
    nextIndex initialContainer = 0
  ∧ ∃ entry result,
      make_entry "/cfg" 0 (appid "Minecraft Splitscreen" "/x/run.sh")
          "Minecraft Splitscreen" "/x/run.sh" "/x" = some entry
    ∧ insertEntry initialContainer entry = some result
    ∧ result.take 7 = initialContainer.take 7
    ∧ occursIn [0, 48, 0] result = true
    ∧ occursIn ([2] ++ utf8Bytes "appid" ++ [0]
          ++ packLE4 (appid "Minecraft Splitscreen" "/x/run.sh")) result = true
    ∧ [8, 8].isSuffixOf result = true := by
  refine ⟨by decide, _, _, rfl, rfl, by decide, by decide, by decide, by decide⟩

/-- C10: the scan finds only non-overlapping occurrences: in
`0x00 '0' 0x00 '1' 0x00` the trailing null of marker 0 would have to double
as the leading null of marker 1, so only the first marker is matched and
`nextIndex` returns 1 (one plus the earlier index), even though the byte
pattern for index 1 occurs at position 2. -/
theorem findall_overlap_skip :
    findall [0, 48, 0, 49, 0] = [[48]]
  ∧ nextIndex [0, 48, 0, 49, 0] = 1
  ∧ List.drop 2 [0, 48, 0, 49, 0] = 0 :: ([49] ++ 0 :: ([] : List Nat)) :=
  ⟨by decide, by decide, by decide⟩

end AddToSteam
